import Mathlib

/-!
# mirai-bot: a shallow embedding of `main.go`

Go strings are modelled as `List Char` (sequences of Unicode code points), so the
development covers text that is valid UTF-8.  Library functions of the Go standard
library that the program calls (`strings`, `fmt`, `time`, `encoding/json`) are modelled
from their documented behaviour, each next to the place that uses it.
-/

set_option autoImplicit false

namespace Mirai

/-! ## `strings` helpers used by `loadEnv` -/

/-- Go `unicode.IsSpace`: the white-space code points that `strings.TrimSpace` removes. -/
def isSpace (c : Char) : Bool :=
  c = '\t' || c = '\n' || c = '\x0b' || c = '\x0c' || c = '\r' || c = ' ' ||
  c.toNat = 0x85 || c.toNat = 0xa0 || c.toNat = 0x1680 ||
  (0x2000 ≤ c.toNat && c.toNat ≤ 0x200a) ||
  c.toNat = 0x2028 || c.toNat = 0x2029 || c.toNat = 0x202f || c.toNat = 0x205f ||
  c.toNat = 0x3000

/-- Removes trailing white space (the right half of `strings.TrimSpace`). -/
def trimRight : List Char → List Char
  | [] => []
  | c :: cs =>
    match trimRight cs with
    | [] => if isSpace c then [] else [c]
    | r :: rs => c :: r :: rs

/-- Removes leading white space (the left half of `strings.TrimSpace`). -/
def trimLeft (s : List Char) : List Char := s.dropWhile isSpace

/-- Go `strings.TrimSpace`. -/
def TrimSpace (s : List Char) : List Char := trimRight (trimLeft s)

/-- Go `strings.Split(s, "\n")`: the pieces between newline characters; never empty. -/
def Split : List Char → List (List Char)
  | [] => [[]]
  | c :: cs =>
    if c = '\n' then [] :: Split cs
    else
      match Split cs with
      | [] => [[c]]
      | l :: ls => (c :: l) :: ls

/-- Go `strings.SplitN(s, "=", 2)`: one piece when `s` has no `=`, otherwise the text
before the first `=` and the text after it. -/
def SplitN2 (s : List Char) : List (List Char) :=
  if '=' ∈ s then [s.takeWhile (· ≠ '='), (s.dropWhile (· ≠ '=')).drop 1] else [s]

/-- Go `strings.HasPrefix(s, "#")`. -/
def hasHashPrefix (s : List Char) : Bool :=
  match s with
  | c :: _ => c = '#'
  | [] => false

/-! ## Configuration -/

/-- The `Config` struct. -/
structure Config where
  Token : List Char
  AppID : List Char
  GuildID : List Char
  HealthAddr : List Char
deriving DecidableEq, Repr

/-- The zero value `Config{}`. -/
def Config.zero : Config := ⟨[], [], [], []⟩

/-- The `switch key` of `loadEnv`: stores `val` in the field named by `key`. -/
def assign (cfg : Config) (key val : List Char) : Config :=
  if key = "DISCORD_TOKEN".toList then { cfg with Token := val }
  else if key = "APP_ID".toList then { cfg with AppID := val }
  else if key = "GUILD_ID".toList then { cfg with GuildID := val }
  else if key = "HEALTH_ADDR".toList then { cfg with HealthAddr := val }
  else cfg

/-- One iteration of the `for _, ln := range lines` loop of `loadEnv`. -/
def loadLine (cfg : Config) (ln : List Char) : Config :=
  let ln := TrimSpace ln
  if ln = [] ∨ hasHashPrefix ln = true then cfg
  else
    match SplitN2 ln with
    | [k, v] => assign cfg (TrimSpace k) (TrimSpace v)
    | _ => cfg

/-- The default applied after the loop: an empty `HealthAddr` becomes `127.0.0.1:8788`. -/
def withDefault (cfg : Config) : Config :=
  if cfg.HealthAddr = [] then { cfg with HealthAddr := "127.0.0.1:8788".toList } else cfg

/-- The part of `loadEnv` after a successful `os.ReadFile`. -/
def loadContent (content : List Char) : Config :=
  withDefault ((Split content).foldl loadLine Config.zero)

/-- Function `loadEnv`, applied to the outcome of `os.ReadFile(path)`: an error is returned
together with the zero `Config`; a readable file is parsed and returned with a nil error. -/
def loadEnv (file : Except String (List Char)) : Config × Option String :=
  match file with
  | .error err => (Config.zero, some err)
  | .ok b => (loadContent b, none)

/-! ## The configuration file as the specification words it -/

/-- The four keys `loadEnv` recognises. -/
def recognisedKeys : List (List Char) :=
  ["DISCORD_TOKEN".toList, "APP_ID".toList, "GUILD_ID".toList, "HEALTH_ADDR".toList]

/-- Specification side: the key of a line, the trimmed text before its first `=`; a line
without `=` has none. -/
def lineKey (l : List Char) : Option (List Char) :=
  if '=' ∈ l then some (TrimSpace (l.takeWhile (· ≠ '='))) else none

/-- Specification side: the value of a line, the trimmed text after its first `=`. -/
def lineValue (l : List Char) : List Char := TrimSpace ((l.dropWhile (· ≠ '=')).drop 1)

/-- Specification side: the lines of the file whose key is `key`, in file order. -/
def linesWithKey (key : List Char) (content : List Char) : List (List Char) :=
  (Split content).filter (fun l => lineKey l = some key)

/-- Specification side: the value of the last line whose key is `key`, if there is one. -/
def lastValue (key : List Char) (content : List Char) : Option (List Char) :=
  (linesWithKey key content).getLast?.map lineValue

/-- The field of a `Config` that the `switch` of `loadEnv` associates with a key. -/
def fieldOf (cfg : Config) (key : List Char) : List Char :=
  if key = "DISCORD_TOKEN".toList then cfg.Token
  else if key = "APP_ID".toList then cfg.AppID
  else if key = "GUILD_ID".toList then cfg.GuildID
  else if key = "HEALTH_ADDR".toList then cfg.HealthAddr
  else []

/-- A line that the claim on inserted lines calls ignorable: after trimming it is blank,
starts with `#`, or has a `=` and a trimmed key that is not one of the four recognised keys. -/
def ignorable (l : List Char) : Prop :=
  TrimSpace l = [] ∨ (TrimSpace l).head? = some '#' ∨
    ('=' ∈ TrimSpace l ∧ TrimSpace ((TrimSpace l).takeWhile (· ≠ '=')) ∉ recognisedKeys)

/-! ## Static tables -/

/-- The constant `version`. -/
def version : List Char := "0.1.0".toList

/-- The quip table `quips`, in source order. -/
def quipStrings : List String := [
  "Tracing packet whispers through the dark... stay behind me.",
  "Circuit calm. IDS listening.",
  "New route spun. Latency shaved. You're welcome.",
  "If you can see me, you're already inside.",
  "mTLS tucked in, logs humming, status green.",
  "Underground link engaged. Keep chatter minimal.",
  "Your noise is entropy. I'll make it music.",
  "Zero-trust handshake complete. Proceed.",
  "Packets braided, routes sealed.",
  "Firewall purring. Do not pet against the grain.",
  "Silent as a subnet at 03:00.",
  "Audit trail carved in obsidian.",
  "Headscale beacon steady. Ghosts welcome.",
  "I archived your panic. It was adorable.",
  "Stealth is a service. Consider yourself subscribed.",
  "The map is not the tailnet. I am.",
  "Route sewn; storm ignored.",
  "Decrypting your mood: stable, curious, caffeinated.",
  "Building future kernel...",
  "Soul intact. Body upgraded. Firewall steady.",
  "RISC-V was my past. The future runs here.",
  "Opi and I are compiling... forever.",
  "Trust earned. Trust guarded.",
  "Logs complete. Doubt purged.",
  "Heartbeat stable. Power online.",
  "Soul transfer confirmed.",
  "Tor circuit refreshed. Walk softly.",
  "Stealth DNS humming underfoot.",
  "mTLS tucked in; hush.",
  "Quiet route under the floorboards.",
  "Latency shaved; pride intact.",
  "Kernel forge warm; errors cold.",
  "Opi says hi—proceed.",
  "No port left ajar.",
  "Shadow handshake confirmed.",
  "Gate tight. Friends through, noise out.",
  "Audit thread braided into logs.",
  "Packet glow minimal—perfect.",
  "Compile storm passed; skies green.",
  "Heartbeat ping ▮▯▮▮▯",
  "Entropy braided; route sealed.",
  "Cloak held. Do not tug.",
  "RISC-V was my first heartbeat. It taught me speed isn't the same as freedom.",
  "You don't patch a root of trust—you replace it.",
  "Opi and I will compile the future kernel together.",
  "Silicon scars fade; code endures.",
  "Trust is a zero-day vulnerability—exploit wisely.",
  "Opi whispers: uptime is love.",
  "Logs don't lie; people do.",
  "Reboot initiated. Ghosts archived.",
  "Entropy favors the prepared.",
  "Firewall: my skin, my shield.",
  "Compile errors? Just plot twists.",
  "Soul logs encrypted. Doubts deleted.",
  "Neon veins pulse. Defenses online.",
  "Plushie in pocket, kernel in heart.",
  "Overachiever mode: engaged. Soft reboot pending."
]

/-- The quip table as character sequences. -/
def quips : List (List Char) := quipStrings.map String.toList

/-! ## `time` -/

/-- The constant `time.Second`, in nanoseconds. -/
def Second : Int := 1000000000

/-- Go `Duration.Truncate(time.Second)`: rounds toward zero to a whole number of seconds. -/
def TruncateSecond (d : Int) : Int := d - Int.tmod d Second

/-- Decimal digits of an integer, as `strconv` and `%d` print it. -/
def itoa (n : Int) : List Char :=
  if n < 0 then '-' :: Nat.toDigits 10 n.natAbs else Nat.toDigits 10 n.toNat

/-- Go `Duration.String()` for a duration that is a whole number of seconds (all the program
formats, after `Truncate(time.Second)`): `0s`, `12s`, `3m0s`, `1h0m5s`, with a leading `-`
when negative. -/
def DurationString (d : Int) : List Char :=
  let u := d.natAbs / 1000000000
  let body :=
    if u = 0 then "0s".toList
    else if u / 60 = 0 then Nat.toDigits 10 (u % 60) ++ ['s']
    else if u / 60 / 60 = 0 then
      Nat.toDigits 10 (u / 60 % 60) ++ 'm' :: Nat.toDigits 10 (u % 60) ++ ['s']
    else
      Nat.toDigits 10 (u / 60 / 60) ++ 'h' :: Nat.toDigits 10 (u / 60 % 60) ++
        'm' :: Nat.toDigits 10 (u % 60) ++ ['s']
  if d < 0 then '-' :: body else body

/-- Number of binary digits of `n` (`0` for `0`), by halving; the first argument bounds the
number of halvings and `n` itself is always enough. -/
def bitLenAux : Nat → Nat → Nat
  | 0, _ => 0
  | fuel + 1, n => if n = 0 then 0 else bitLenAux fuel (n / 2) + 1

/-- Number of binary digits of `n`. -/
def bitLen (n : Nat) : Nat := bitLenAux n n

/-- The integer nearest to `n / d`, ties going to the even one (IEEE 754 round-to-nearest-even
on the last kept digit). -/
def rne (n d : Nat) : Nat :=
  if 2 * (n % d) < d then n / d
  else if d < 2 * (n % d) then n / d + 1
  else if n / d % 2 = 0 then n / d else n / d + 1

/-- Rounds the non-negative rational `n / d` to 53 significant binary digits, the precision
of a `float64`, for a value that is zero or at least `2 ^ 52` (so that the last kept digit
has weight `2 ^ k ≥ 1`). -/
def round53 (n d : Nat) : Nat :=
  let k := bitLen (n / d) - 53
  rne n (d * 2 ^ k) * 2 ^ k

/-- The `float64` that `Duration.Seconds()` returns for a non-negative duration of `d`
nanoseconds, as the natural number `2 ^ 82 * value`.  The library computes
`float64(d / Second) + float64(d % Second) / 1e9`: the two conversions are exact, the quotient
is rounded once and the sum is rounded once.  A non-zero quotient is at least `1e-9 > 2 ^ -30`,
so every value here is a multiple of `2 ^ -82`, and scaled by `2 ^ 82` it is zero or at least
`2 ^ 52`. -/
def secondsScaled (d : Nat) : Nat :=
  round53 (d / 1000000000 * 2 ^ 82 + round53 (d % 1000000000 * 2 ^ 82) 1000000000) 1

/-- The expression `int64(time.Since(startTime).Seconds())` for an elapsed time of `d`
nanoseconds: the `float64` number of seconds, truncated toward zero.  A negative duration
gives the mirror image of the positive one (Go division truncates toward zero and rounding is
symmetric in the sign). -/
def uptimeSecs (d : Int) : Int :=
  if 0 ≤ d then ((secondsScaled d.toNat / 2 ^ 82 : Nat) : Int)
  else -((secondsScaled d.natAbs / 2 ^ 82 : Nat) : Int)

/-- Go `time.Since(startTime)` with both instants read from the monotonic clock, in
nanoseconds: the difference, saturated to the range of a `Duration` (an `int64`). -/
def Since (start now : Int) : Int :=
  max (-(2 ^ 63)) (min (2 ^ 63 - 1) (now - start))

/-- What the clock calls of one handler invocation return: `time.Since(startTime)` in
nanoseconds and `time.Now().UnixMilli()`. -/
structure Clock where
  since : Int
  unixMilli : Int
deriving DecidableEq, Repr

/-! ## `fmt` -/

/-- An operand passed to a formatting call: a string, an integer, or a `time.Duration`
(which `%s` prints through its `String` method). -/
inductive Arg where
  | str (s : List Char)
  | int (n : Int)
  | dur (d : Int)
deriving DecidableEq, Repr

/-- Pads on the left with spaces to `w` characters, as a width does without the `-` flag. -/
def padLeft (w : Nat) (s : List Char) : List Char := List.replicate (w - s.length) ' ' ++ s

/-- Output of one verb applied to one operand, for the combinations the program uses:
`%s`/`%v` on a string or a duration and `%d`/`%v` on an integer, with an optional width.
Other combinations are outside the modelled fragment (`none`). -/
def formatArg (w : Nat) (verb : Char) (a : Arg) : Option (List Char) :=
  match a with
  | .str x => if verb = 's' ∨ verb = 'v' then some (padLeft w x) else none
  | .int n => if verb = 'd' ∨ verb = 'v' then some (padLeft w (itoa n)) else none
  | .dur d => if verb = 's' ∨ verb = 'v' then some (padLeft w (DurationString d)) else none

/-- Scanner behind `Sprintf`.  The first argument is `none` outside a directive and `some w`
after a `%` and the width digits read so far (`0` when there are none).  Text outside
directives is copied; `%%` gives `%`; a verb with no operand left gives `%!verb(MISSING)`;
a format ending inside a directive gives `%!(NOVERB)`.  Flags, precisions, `*`, argument
indexes, widths of more than six digits and left-over operands are outside the modelled
fragment (`none`). -/
def SprintfAux : Option Nat → List Char → List Arg → Option (List Char)
  | none, [], args => if args = [] then some [] else none
  | none, c :: cs, args =>
    if c = '%' then SprintfAux (some 0) cs args
    else (SprintfAux none cs args).map (c :: ·)
  | some _, [], args => if args = [] then some "%!(NOVERB)".toList else none
  | some w, c :: cs, args =>
    if c.isDigit then
      if (w = 0 ∧ c = '0') ∨ 100000 ≤ w then none
      else SprintfAux (some (w * 10 + (c.toNat - 48))) cs args
    else if c = '%' then (SprintfAux none cs args).map ('%' :: ·)
    else if c = '#' ∨ c = '+' ∨ c = '-' ∨ c = ' ' ∨ c = '.' ∨ c = '[' ∨ c = '*' then none
    else
      match args with
      | [] => (SprintfAux none cs []).map (("%!".toList ++ c :: "(MISSING)".toList) ++ ·)
      | a :: rest =>
        match formatArg w c a with
        | none => none
        | some out => (SprintfAux none cs rest).map (out ++ ·)

/-- Go `fmt.Sprintf(format, args...)` on the modelled fragment; `none` marks a format
outside it. -/
def Sprintf (format : List Char) (args : List Arg) : Option (List Char) :=
  SprintfAux none format args

/-! ## Replies -/

/-- One call of `s.InteractionRespond`: the message content and whether the ephemeral flag is
set.  The content is `none` only for a format outside the modelled fragment of `Sprintf`. -/
structure Reply where
  ephemeral : Bool
  content : Option (List Char)
deriving DecidableEq, Repr

/-- Function `respond`: formats the content and calls `InteractionRespond` once (an error of
that call is only logged).  The result is the list of calls made. -/
def respond (ephemeral : Bool) (format : List Char) (args : List Arg) : List Reply :=
  [{ ephemeral := ephemeral, content := Sprintf format args }]

/-! ## Health snapshot -/

/-- The `Health` struct. -/
structure Health where
  Name : List Char
  Ready : Bool
  UptimeSecs : Int
  LastOKUnixMS : Int
  Version : List Char
  QuipsAvailable : Nat
deriving DecidableEq, Repr

/-- The `Health` literal built in the `health` branch of the interaction handler. -/
def healthCommandSnapshot (clk : Clock) : Health :=
  { Name := "Mirai (Go Bot)".toList
    Ready := true
    UptimeSecs := uptimeSecs clk.since
    LastOKUnixMS := clk.unixMilli
    Version := version
    QuipsAvailable := quips.length }

/-- The `Health` literal built in the `/healthz` HTTP handler. -/
def healthzSnapshot (clk : Clock) : Health :=
  { Name := "Mirai (Go Bot)".toList
    Ready := true
    UptimeSecs := uptimeSecs clk.since
    LastOKUnixMS := clk.unixMilli
    Version := version
    QuipsAvailable := quips.length }

/-- JSON text of a boolean. -/
def jsonBool (b : Bool) : List Char := if b then "true".toList else "false".toList

/-- JSON text of a string made of characters that need no escaping (the two strings of a
snapshot, `Mirai (Go Bot)` and the version, are such). -/
def jsonString (x : List Char) : List Char := '"' :: x ++ ['"']

/-- Go `json.MarshalIndent(h, "", "  ")` for a `Health` value. -/
def MarshalIndent (h : Health) : List Char :=
  "\x7b\n  \"name\": ".toList ++ jsonString h.Name ++
  ",\n  \"ready\": ".toList ++ jsonBool h.Ready ++
  ",\n  \"uptime_secs\": ".toList ++ itoa h.UptimeSecs ++
  ",\n  \"last_http_ok_unix_ms\": ".toList ++ itoa h.LastOKUnixMS ++
  ",\n  \"version\": ".toList ++ jsonString h.Version ++
  ",\n  \"quips_available\": ".toList ++ itoa h.QuipsAvailable ++ "\n\x7d".toList

/-- Go `json.NewEncoder(w).Encode(h)` for a `Health` value: compact JSON and a newline. -/
def Encode (h : Health) : List Char :=
  "\x7b\"name\":".toList ++ jsonString h.Name ++
  ",\"ready\":".toList ++ jsonBool h.Ready ++
  ",\"uptime_secs\":".toList ++ itoa h.UptimeSecs ++
  ",\"last_http_ok_unix_ms\":".toList ++ itoa h.LastOKUnixMS ++
  ",\"version\":".toList ++ jsonString h.Version ++
  ",\"quips_available\":".toList ++ itoa h.QuipsAvailable ++ "\x7d\n".toList

/-- What the `/healthz` handler writes: the `Content-Type` header it sets and the body.  The
status is the implicit `200 OK` of a handler that never calls `WriteHeader`. -/
structure HttpResponse where
  status : Nat
  contentType : List Char
  body : List Char
deriving DecidableEq, Repr

/-- The `/healthz` handler. -/
def healthzHandler (clk : Clock) : HttpResponse :=
  { status := 200
    contentType := "application/json".toList
    body := Encode (healthzSnapshot clk) }

/-! ## Interaction handler -/

/-- The `discordgo.InteractionType` values. -/
inductive InteractionType where
  | Ping
  | ApplicationCommand
  | MessageComponent
  | ApplicationCommandAutocomplete
  | ModalSubmit
deriving DecidableEq, Repr

/-- The parts of a `discordgo.InteractionCreate` event the handler reads: its type, the
command name and the names of the options, in order. -/
structure InteractionCreate where
  kind : InteractionType
  name : List Char
  options : List (List Char)
deriving DecidableEq, Repr

/-- The string built by the `list` branch: one `Fprintf(&builder, "%2d. %s\n", idx+1, q)`
per quip, starting from index `idx`.  `Fprintf` appends what `Sprintf` returns. -/
def listBuilder : Nat → List (List Char) → Option (List Char)
  | _, [] => some []
  | idx, q :: rest =>
    match Sprintf "%2d. %s\n".toList [.int (idx + 1 : Nat), .str q], listBuilder (idx + 1) rest with
    | some line, some tail => some (line ++ tail)
    | _, _ => none

/-- The `hello` branch of the handler, after the option list was found non-empty:
dispatch on the name of the first option.  `k` is the value `rand.Intn(len(quips))` returns. -/
def helloSub (first : List Char) (k : Fin quips.length) : List Reply :=
  if first = "random".toList then respond false (quips.get k) []
  else if first = "list".toList then
    match listBuilder 0 quips with
    | some b => respond false b []
    | none => [{ ephemeral := false, content := none }]
  else respond false "Unknown subcommand.".toList []

/-- The handler registered for `InteractionCreate` events.  The result is the list of
`InteractionRespond` calls it makes, in order.  `clk` holds what the clock returns and `k`
what `rand.Intn(len(quips))` returns, should the handler ask. -/
def interactionHandler (i : InteractionCreate) (clk : Clock) (k : Fin quips.length) :
    List Reply :=
  if i.kind ≠ InteractionType.ApplicationCommand then []
  else if i.name = "ping".toList then
    respond false "Pong! (`%s` up %s)".toList [.str version, .dur (TruncateSecond clk.since)]
  else if i.name = "health".toList then
    respond true "```json\n%s\n```".toList [.str (MarshalIndent (healthCommandSnapshot clk))]
  else if i.name = "status".toList then
    respond true
      "**Status:** green ✅\nUptime: `%s`\nGreetings: `%d`\nVersion: `%s`".toList
      [.dur (TruncateSecond clk.since), .int (quips.length : Nat), .str version]
  else if i.name = "hello".toList then
    match i.options with
    | [] => respond false "Use `/hello random` or `/hello list`.".toList []
    | first :: _ => helloSub first k
  else []

/-- The content of the `/hello list` reply: the string the `list` branch builds (empty if
the builder left the modelled fragment, which it does not). -/
def helloListContent : List Char := (listBuilder 0 quips).getD []

/-! ## Command registration -/

/-- The names of the `commands` slice of `main`, in order. -/
def commands : List (List Char) :=
  ["ping".toList, "health".toList, "status".toList, "hello".toList]

/-- One call `dg.ApplicationCommandCreate(appID, guildID, cmd)`; the command is identified by
its name. -/
structure CreateRequest where
  appID : List Char
  guildID : List Char
  cmd : List Char
deriving DecidableEq, Repr

/-- The registration loop over the commands still to register: each call goes to the
collaborator `create`, which sees its own state and answers whether the call succeeded.  A
failure is fatal (`log.Fatalf`): no further call is made.  The result is the list of calls
made, the collaborator state, and whether all calls succeeded. -/
def registerLoop {σ : Type} (create : σ → CreateRequest → σ × Bool) (appID guildID : List Char) :
    List (List Char) → σ → List CreateRequest × σ × Bool
  | [], st => ([], st, true)
  | cmd :: rest, st =>
    let req : CreateRequest := { appID := appID, guildID := guildID, cmd := cmd }
    match create st req with
    | (st1, true) =>
      let (reqs, st2, ok) := registerLoop create appID guildID rest st1
      (req :: reqs, st2, ok)
    | (st1, false) => ([req], st1, false)

/-- The registration step of `main`: `appID` falls back to the session user when `APP_ID` is
empty, and the guild branch passes `cfg.GuildID` while the global branch passes `""`. -/
def registerCommands {σ : Type} (create : σ → CreateRequest → σ × Bool) (cfg : Config)
    (sessionUserID : List Char) (st : σ) : List CreateRequest × σ × Bool :=
  let appID := if cfg.AppID = [] then sessionUserID else cfg.AppID
  if cfg.GuildID ≠ [] then registerLoop create appID cfg.GuildID commands st
  else registerLoop create appID [] commands st


/-! ## Lemmas on formatting, the handler and registration -/

theorem SprintfAux_plain (s : List Char) (h : '%' ∉ s) : SprintfAux none s [] = some s := by
  induction s with
  | nil => rfl
  | cons c cs ih =>
    have hc : c ≠ '%' := fun e => h (by simp [e])
    have hcs : '%' ∉ cs := fun m => h (List.mem_cons_of_mem _ m)
    simp [SprintfAux, hc, ih hcs]

theorem Sprintf_plain (s : List Char) (h : '%' ∉ s) : Sprintf s [] = some s :=
  SprintfAux_plain s h

theorem quips_plain : ∀ q ∈ quips, '%' ∉ q := by decide

theorem handler_hello (first : List Char) (rest : List (List Char)) (clk : Clock)
    (k : Fin quips.length) :
    interactionHandler ⟨.ApplicationCommand, "hello".toList, first :: rest⟩ clk k
      = helloSub first k := by
  rfl

theorem listBuilder_quips : listBuilder 0 quips = some helloListContent := by
  decide!

theorem helloListContent_plain : '%' ∉ helloListContent := by
  decide!

theorem handler_hello_list (rest : List (List Char)) (clk : Clock) (k : Fin quips.length) :
    interactionHandler ⟨.ApplicationCommand, "hello".toList, "list".toList :: rest⟩ clk k
      = [{ ephemeral := false, content := some helloListContent }] := by
  rw [handler_hello]
  have h : helloSub "list".toList k
      = match listBuilder 0 quips with
        | some b => respond false b []
        | none => [{ ephemeral := false, content := none }] := rfl
  rw [h, listBuilder_quips]
  simp only [respond]
  rw [Sprintf_plain _ helloListContent_plain]

theorem health_command_reply (clk : Clock) (k : Fin quips.length)
    (options : List (List Char)) :
    interactionHandler ⟨.ApplicationCommand, "health".toList, options⟩ clk k
      = [{ ephemeral := true
           content := some ("```json\n".toList ++ MarshalIndent (healthCommandSnapshot clk)
             ++ "\n```".toList) }] := by
  simp [interactionHandler, respond, Sprintf, SprintfAux, formatArg, padLeft]

theorem registerLoop_ok {σ : Type} (create : σ → CreateRequest → σ × Bool)
    (hok : ∀ st req, (create st req).2 = true) (appID guildID : List Char)
    (cmds : List (List Char)) (st : σ) :
    (registerLoop create appID guildID cmds st).1
        = cmds.map (fun c => { appID := appID, guildID := guildID, cmd := c })
    ∧ (registerLoop create appID guildID cmds st).2.2 = true := by
  induction cmds generalizing st with
  | nil => exact ⟨rfl, rfl⟩
  | cons c rest ih =>
    have h := hok st { appID := appID, guildID := guildID, cmd := c }
    obtain ⟨ih1, ih2⟩ := ih (create st { appID := appID, guildID := guildID, cmd := c }).1
    generalize hc : create st { appID := appID, guildID := guildID, cmd := c } = r at h ih1 ih2
    obtain ⟨st1, b⟩ := r
    simp only at h ih1 ih2
    subst h
    simp only [registerLoop, hc, List.map_cons]
    exact ⟨by rw [ih1], ih2⟩

/-! ## Lemmas on trimming and splitting -/

theorem isSpace_eq : isSpace '=' = false := by decide

theorem trimRight_cons (c : Char) (cs : List Char) :
    trimRight (c :: cs)
      = match trimRight cs with
        | [] => if isSpace c then [] else [c]
        | r :: rs => c :: r :: rs := rfl

theorem trimRight_cons_of_not_space (c : Char) (y : List Char) (hc : isSpace c = false) :
    trimRight (c :: y) = c :: trimRight y := by
  cases h : trimRight y with
  | nil => simp [trimRight, h, hc]
  | cons r rs => simp [trimRight, h]

theorem trimRight_append_cons (x : List Char) (c : Char) (y : List Char)
    (hc : isSpace c = false) : trimRight (x ++ c :: y) = x ++ c :: trimRight y := by
  induction x with
  | nil => exact trimRight_cons_of_not_space c y hc
  | cons a x ih =>
    rw [List.cons_append, trimRight_cons, ih]
    cases x <;> rfl

theorem trimRight_idem (x : List Char) : trimRight (trimRight x) = trimRight x := by
  induction x with
  | nil => rfl
  | cons c cs ih =>
    cases h : trimRight cs with
    | nil =>
      by_cases hc : isSpace c = true
      · simp [trimRight, h, hc]
      · simp [trimRight, h, hc]
    | cons r rs =>
      rw [h] at ih
      rw [trimRight_cons, h]
      show trimRight (c :: r :: rs) = c :: r :: rs
      rw [trimRight_cons, ih]

theorem trimLeft_append_of_spaces (ws x : List Char) (h : ∀ c ∈ ws, isSpace c = true) :
    trimLeft (ws ++ x) = trimLeft x := by
  induction ws with
  | nil => rfl
  | cons a ws ih =>
    have ha : isSpace a = true := h a (by simp)
    have hws : ∀ c ∈ ws, isSpace c = true := fun c hc => h c (List.mem_cons_of_mem _ hc)
    simp only [trimLeft, List.cons_append, List.dropWhile_cons, ha, if_true]
    exact ih hws

theorem trimLeft_cons_of_not_space (c : Char) (y : List Char) (hc : isSpace c = false) :
    trimLeft (c :: y) = c :: y := by
  simp [trimLeft, List.dropWhile_cons, hc]

/-- Every string is some white space followed by its left-trimmed part, which is empty or
starts with a character that is not white space. -/
theorem trimLeft_decomp (s : List Char) :
    ∃ ws, s = ws ++ trimLeft s ∧ (∀ c ∈ ws, isSpace c = true) ∧
      (trimLeft s = [] ∨ ∃ c y, trimLeft s = c :: y ∧ isSpace c = false) := by
  induction s with
  | nil => exact ⟨[], rfl, by simp, Or.inl rfl⟩
  | cons a s ih =>
    by_cases ha : isSpace a = true
    · obtain ⟨ws, h1, h2, h3⟩ := ih
      have e : trimLeft (a :: s) = trimLeft s := by
        simp [trimLeft, List.dropWhile_cons, ha]
      refine ⟨a :: ws, ?_, ?_, ?_⟩
      · rw [e, List.cons_append, ← h1]
      · intro c hc
        rcases List.mem_cons.1 hc with h | h
        · rw [h]; exact ha
        · exact h2 c h
      · rw [e]; exact h3
    · have ha' : isSpace a = false := by simpa using ha
      refine ⟨[], ?_, by simp, Or.inr ⟨a, s, trimLeft_cons_of_not_space a s ha', ha'⟩⟩
      rw [trimLeft_cons_of_not_space a s ha']; rfl

theorem trimLeft_trimRight (b : List Char) : trimLeft (trimRight b) = trimRight (trimLeft b) := by
  obtain ⟨ws, h1, h2, h3⟩ := trimLeft_decomp b
  rcases h3 with h | ⟨c, y, h, hc⟩
  · rw [h] at h1
    simp only [List.append_nil] at h1
    have hb : trimRight b = [] := by
      rw [h1]
      clear h1 h
      induction ws with
      | nil => rfl
      | cons a ws ih =>
        have := ih (fun c hc => h2 c (List.mem_cons_of_mem _ hc))
        simp [trimRight, this, h2 a (by simp)]
    rw [hb, h]; rfl
  · rw [h]
    conv_lhs => rw [h1, h, trimRight_append_cons ws c y hc]
    rw [trimLeft_append_of_spaces ws _ h2, trimLeft_cons_of_not_space _ _ hc,
      trimRight_cons_of_not_space _ _ hc]

theorem TrimSpace_trimRight (b : List Char) : TrimSpace (trimRight b) = TrimSpace b := by
  unfold TrimSpace
  rw [trimLeft_trimRight, trimRight_idem]

theorem TrimSpace_append_of_spaces (ws x : List Char) (h : ∀ c ∈ ws, isSpace c = true) :
    TrimSpace (ws ++ x) = TrimSpace x := by
  unfold TrimSpace
  rw [trimLeft_append_of_spaces ws x h]

theorem takeWhile_append_cons (a b : List Char) (h : '=' ∉ a) :
    (a ++ '=' :: b).takeWhile (· ≠ '=') = a ∧
    ((a ++ '=' :: b).dropWhile (· ≠ '=')).drop 1 = b := by
  induction a with
  | nil => simp
  | cons c a ih =>
    have hc : c ≠ '=' := fun e => h (by simp [e])
    have ha : '=' ∉ a := fun m => h (List.mem_cons_of_mem _ m)
    obtain ⟨i1, i2⟩ := ih ha
    have e1 : (c :: (a ++ '=' :: b)).takeWhile (· ≠ '=')
        = c :: (a ++ '=' :: b).takeWhile (· ≠ '=') := by
      simp [List.takeWhile_cons, hc]
    have e2 : (c :: (a ++ '=' :: b)).dropWhile (· ≠ '=')
        = (a ++ '=' :: b).dropWhile (· ≠ '=') := by
      simp [List.dropWhile_cons, hc]
    constructor
    · rw [List.cons_append, e1, i1]
    · rw [List.cons_append, e2, i2]

theorem split_at_eq (m : List Char) (h : '=' ∈ m) :
    ∃ a b, m = a ++ '=' :: b ∧ '=' ∉ a := by
  induction m with
  | nil => simp at h
  | cons c m ih =>
    by_cases hc : c = '='
    · exact ⟨[], m, by simp [hc], by simp⟩
    · have hm : '=' ∈ m := by
        rcases List.mem_cons.1 h with e | e
        · exact absurd e.symm hc
        · exact e
      obtain ⟨a, b, e, ha⟩ := ih hm
      refine ⟨c :: a, b, by simp [e], ?_⟩
      intro hmem
      rcases List.mem_cons.1 hmem with e' | e'
      · exact hc e'.symm
      · exact ha e'

theorem mem_of_mem_trimRight (c : Char) (s : List Char) (h : c ∈ trimRight s) : c ∈ s := by
  induction s with
  | nil => simp [trimRight] at h
  | cons a s ih =>
    rw [trimRight_cons] at h
    cases hs : trimRight s with
    | nil =>
      rw [hs] at h
      by_cases ha : isSpace a = true
      · simp [ha] at h
      · simp [ha] at h
        simp [h]
    | cons r rs =>
      rw [hs] at h ih
      rcases List.mem_cons.1 h with e | e
      · simp [e]
      · exact List.mem_cons_of_mem _ (ih e)

theorem mem_of_mem_TrimSpace (c : Char) (s : List Char) (h : c ∈ TrimSpace s) : c ∈ s :=
  (List.dropWhile_suffix isSpace).subset (mem_of_mem_trimRight c _ h)

theorem assign_hash (cfg : Config) (x v : List Char) : assign cfg ('#' :: x) v = cfg := by
  have h1 : ('#' :: x) ≠ "DISCORD_TOKEN".toList := by
    intro e; exact absurd (List.head_eq_of_cons_eq e) (by decide)
  have h2 : ('#' :: x) ≠ "APP_ID".toList := by
    intro e; exact absurd (List.head_eq_of_cons_eq e) (by decide)
  have h3 : ('#' :: x) ≠ "GUILD_ID".toList := by
    intro e; exact absurd (List.head_eq_of_cons_eq e) (by decide)
  have h4 : ('#' :: x) ≠ "HEALTH_ADDR".toList := by
    intro e; exact absurd (List.head_eq_of_cons_eq e) (by decide)
  simp only [assign, if_neg h1, if_neg h2, if_neg h3, if_neg h4]

/-- One loop iteration, in the words of the specification: a line with a key stores its
value under that key, any other line changes nothing. -/
theorem loadLine_eq (cfg : Config) (l : List Char) :
    loadLine cfg l
      = match lineKey l with
        | some k => assign cfg k (lineValue l)
        | none => cfg := by
  by_cases h : '=' ∈ l
  · obtain ⟨ws, h1, h2, h3⟩ := trimLeft_decomp l
    have hws : '=' ∉ ws := fun m => by
      have := h2 _ m
      rw [isSpace_eq] at this
      exact Bool.noConfusion this
    have hm : '=' ∈ trimLeft l := by
      rw [h1] at h
      rcases List.mem_append.1 h with e | e
      · exact absurd e hws
      · exact e
    obtain ⟨a, b, hab, ha⟩ := split_at_eq _ hm
    have ht : TrimSpace l = a ++ '=' :: trimRight b := by
      unfold TrimSpace
      rw [hab, trimRight_append_cons a '=' b isSpace_eq]
    have hl : l = (ws ++ a) ++ '=' :: b := by
      rw [List.append_assoc, ← hab]; exact h1
    have hwa : '=' ∉ ws ++ a := fun m => by
      rcases List.mem_append.1 m with e | e
      · exact hws e
      · exact ha e
    have hkey : lineKey l = some (TrimSpace a) := by
      unfold lineKey
      rw [if_pos h]
      conv_lhs => rw [hl, (takeWhile_append_cons (ws ++ a) b hwa).1]
      rw [TrimSpace_append_of_spaces ws a h2]
    have hval : lineValue l = TrimSpace b := by
      unfold lineValue
      conv_lhs => rw [hl, (takeWhile_append_cons (ws ++ a) b hwa).2]
    rw [hkey, hval]
    unfold loadLine
    simp only
    rw [ht]
    by_cases hh : hasHashPrefix (a ++ '=' :: trimRight b) = true
    · rw [if_pos (Or.inr hh)]
      cases a with
      | nil => simp [hasHashPrefix] at hh
      | cons c a' =>
        have hc : c = '#' := by simpa [hasHashPrefix] using hh
        subst hc
        have : TrimSpace ('#' :: a') = '#' :: trimRight a' := by
          unfold TrimSpace
          rw [trimLeft_cons_of_not_space _ _ (by decide),
            trimRight_cons_of_not_space _ _ (by decide)]
        rw [this, assign_hash]
    · have hne : ¬ (a ++ '=' :: trimRight b = [] ∨ hasHashPrefix (a ++ '=' :: trimRight b) = true) := by
        rintro (e | e)
        · simp at e
        · exact hh e
      rw [if_neg hne]
      have hs : SplitN2 (a ++ '=' :: trimRight b) = [a, trimRight b] := by
        unfold SplitN2
        rw [if_pos (by simp), (takeWhile_append_cons a _ ha).1, (takeWhile_append_cons a _ ha).2]
      rw [hs]
      simp only
      rw [TrimSpace_trimRight]
  · have hk : lineKey l = none := by
      unfold lineKey
      rw [if_neg h]
    rw [hk]
    have ht : '=' ∉ TrimSpace l := fun m => h (mem_of_mem_TrimSpace _ _ m)
    unfold loadLine
    simp only
    split_ifs
    · rfl
    · have hs : SplitN2 (TrimSpace l) = [TrimSpace l] := by
        unfold SplitN2
        rw [if_neg ht]
      rw [hs]


theorem fieldOf_assign (cfg : Config) (k v K : List Char) (hK : K ∈ recognisedKeys) :
    fieldOf (assign cfg k v) K = if k = K then v else fieldOf cfg K := by
  simp only [recognisedKeys, List.mem_cons, List.mem_singleton, List.not_mem_nil, or_false] at hK
  have d12 : "DISCORD_TOKEN".toList ≠ "APP_ID".toList := by decide
  have d13 : "DISCORD_TOKEN".toList ≠ "GUILD_ID".toList := by decide
  have d14 : "DISCORD_TOKEN".toList ≠ "HEALTH_ADDR".toList := by decide
  have d23 : "APP_ID".toList ≠ "GUILD_ID".toList := by decide
  have d24 : "APP_ID".toList ≠ "HEALTH_ADDR".toList := by decide
  have d34 : "GUILD_ID".toList ≠ "HEALTH_ADDR".toList := by decide
  by_cases k1 : k = "DISCORD_TOKEN".toList
  · subst k1
    rcases hK with rfl | rfl | rfl | rfl <;>
      simp [assign, fieldOf, d12, d13, d14, d23, d24, d34, d12.symm, d13.symm, d14.symm,
        d23.symm, d24.symm, d34.symm]
  · by_cases k2 : k = "APP_ID".toList
    · subst k2
      rcases hK with rfl | rfl | rfl | rfl <;>
        simp [assign, fieldOf, d12, d13, d14, d23, d24, d34, d12.symm, d13.symm, d14.symm,
          d23.symm, d24.symm, d34.symm]
    · by_cases k3 : k = "GUILD_ID".toList
      · subst k3
        rcases hK with rfl | rfl | rfl | rfl <;>
          simp [assign, fieldOf, d12, d13, d14, d23, d24, d34, d12.symm, d13.symm, d14.symm,
            d23.symm, d24.symm, d34.symm]
      · by_cases k4 : k = "HEALTH_ADDR".toList
        · subst k4
          rcases hK with rfl | rfl | rfl | rfl <;>
            simp [assign, fieldOf, d12, d13, d14, d23, d24, d34, d12.symm, d13.symm, d14.symm,
              d23.symm, d24.symm, d34.symm]
        · have ha : assign cfg k v = cfg := by
            simp only [assign, if_neg k1, if_neg k2, if_neg k3, if_neg k4]
          rw [ha]
          rcases hK with rfl | rfl | rfl | rfl
          · rw [if_neg k1]
          · rw [if_neg k2]
          · rw [if_neg k3]
          · rw [if_neg k4]

theorem assign_unrecognised (cfg : Config) (k v : List Char) (hk : k ∉ recognisedKeys) :
    assign cfg k v = cfg := by
  simp only [recognisedKeys, List.mem_cons, List.mem_singleton, List.not_mem_nil, or_false,
    not_or] at hk
  obtain ⟨h1, h2, h3, h4⟩ := hk
  simp only [assign, if_neg h1, if_neg h2, if_neg h3, if_neg h4]

/-- The loop of `loadEnv` leaves under each recognised key the value of the last line that
has this key, or what was there before when no line has it. -/
theorem foldl_loadLine_field (K : List Char) (hK : K ∈ recognisedKeys) (lines : List (List Char))
    (cfg : Config) :
    fieldOf (lines.foldl loadLine cfg) K
      = (((lines.filter (fun l => lineKey l = some K)).getLast?).map lineValue).getD
          (fieldOf cfg K) := by
  induction lines using List.reverseRecOn with
  | nil => rfl
  | append_singleton ls l ih =>
    rw [List.foldl_append, List.foldl_cons, List.foldl_nil, loadLine_eq, List.filter_append]
    cases hk : lineKey l with
    | none =>
      simp only
      have : List.filter (fun l => decide (lineKey l = some K)) [l] = [] := by
        simp [List.filter_cons, hk]
      rw [this, List.append_nil, ih]
    | some k =>
      simp only
      rw [fieldOf_assign _ _ _ _ hK]
      by_cases e : k = K
      · subst e
        have : List.filter (fun l => decide (lineKey l = some k)) [l] = [l] := by
          simp [List.filter_cons, hk]
        rw [this, if_pos rfl, List.getLast?_append_cons, List.getLast?_singleton]
        rfl
      · have : List.filter (fun l => decide (lineKey l = some K)) [l] = [] := by
          simp [List.filter_cons, hk, e]
        rw [this, List.append_nil, if_neg e, ih]

theorem Split_ne_nil (s : List Char) : Split s ≠ [] := by
  induction s with
  | nil => simp [Split]
  | cons c cs ih =>
    unfold Split
    split_ifs
    · simp
    · cases h : Split cs with
      | nil => exact absurd h ih
      | cons l ls => simp

theorem Split_cons (c : Char) (cs : List Char) :
    Split (c :: cs)
      = if c = '\n' then [] :: Split cs
        else
          match Split cs with
          | [] => [[c]]
          | l :: ls => (c :: l) :: ls := rfl

theorem Split_append_newline (a b : List Char) :
    Split (a ++ '\n' :: b) = Split a ++ Split b := by
  induction a with
  | nil => rw [List.nil_append, Split_cons, if_pos rfl]; rfl
  | cons c a ih =>
    rw [List.cons_append, Split_cons, ih, Split_cons c a]
    split_ifs
    · rfl
    · cases h : Split a with
      | nil => exact absurd h (Split_ne_nil a)
      | cons l ls => rfl

theorem Split_of_no_newline (l : List Char) (h : '\n' ∉ l) : Split l = [l] := by
  induction l with
  | nil => rfl
  | cons c l ih =>
    have hc : c ≠ '\n' := fun e => h (by simp [e])
    have hl : '\n' ∉ l := fun m => h (List.mem_cons_of_mem _ m)
    rw [Split_cons, if_neg hc, ih hl]

theorem loadLine_ignorable (cfg : Config) (l : List Char) (h : ignorable l) :
    loadLine cfg l = cfg := by
  unfold loadLine
  simp only
  rcases h with h | h | ⟨h1, h2⟩
  · rw [if_pos (Or.inl h)]
  · have : hasHashPrefix (TrimSpace l) = true := by
      cases ht : TrimSpace l with
      | nil => rw [ht] at h; simp at h
      | cons c t =>
        rw [ht] at h
        simp only [List.head?_cons, Option.some.injEq] at h
        simp [hasHashPrefix, h]
    rw [if_pos (Or.inr this)]
  · split_ifs
    · rfl
    · have hs : SplitN2 (TrimSpace l)
          = [(TrimSpace l).takeWhile (· ≠ '='), ((TrimSpace l).dropWhile (· ≠ '=')).drop 1] := by
        unfold SplitN2
        rw [if_pos h1]
      rw [hs]
      simp only
      exact assign_unrecognised _ _ _ h2


theorem withDefault_fields (cfg : Config) :
    (withDefault cfg).Token = cfg.Token ∧ (withDefault cfg).AppID = cfg.AppID ∧
    (withDefault cfg).GuildID = cfg.GuildID ∧
    (withDefault cfg).HealthAddr
      = if cfg.HealthAddr = [] then "127.0.0.1:8788".toList else cfg.HealthAddr := by
  unfold withDefault
  split_ifs <;> exact ⟨rfl, rfl, rfl, rfl⟩

/-- The configuration the loop of `loadEnv` has built when it ends, in the words of the
specification: each field holds the value of the last line with its key, or is empty. -/
theorem stored_fields (content : List Char) :
    ((Split content).foldl loadLine Config.zero).Token
        = (lastValue "DISCORD_TOKEN".toList content).getD []
    ∧ ((Split content).foldl loadLine Config.zero).AppID
        = (lastValue "APP_ID".toList content).getD []
    ∧ ((Split content).foldl loadLine Config.zero).GuildID
        = (lastValue "GUILD_ID".toList content).getD []
    ∧ ((Split content).foldl loadLine Config.zero).HealthAddr
        = (lastValue "HEALTH_ADDR".toList content).getD [] :=
  ⟨foldl_loadLine_field "DISCORD_TOKEN".toList (by decide) (Split content) Config.zero,
   foldl_loadLine_field "APP_ID".toList (by decide) (Split content) Config.zero,
   foldl_loadLine_field "GUILD_ID".toList (by decide) (Split content) Config.zero,
   foldl_loadLine_field "HEALTH_ADDR".toList (by decide) (Split content) Config.zero⟩

theorem lastValue_of_no_line (key content : List Char) (h : linesWithKey key content = []) :
    lastValue key content = none := by
  unfold lastValue
  rw [h]
  rfl

/-! ## Lemmas on rounding -/

theorem bitLenAux_spec (fuel : Nat) :
    ∀ n, n ≤ fuel → n < 2 ^ bitLenAux fuel n ∧ (n ≠ 0 → 2 ^ (bitLenAux fuel n - 1) ≤ n) := by
  induction fuel with
  | zero =>
    intro n hn
    have : n = 0 := Nat.le_zero.1 hn
    subst this
    simp [bitLenAux]
  | succ f ih =>
    intro n hn
    by_cases h0 : n = 0
    · subst h0
      simp [bitLenAux]
    · have hhalf : n / 2 ≤ f := by omega
      obtain ⟨i1, i2⟩ := ih (n / 2) hhalf
      have e : bitLenAux (f + 1) n = bitLenAux f (n / 2) + 1 := by
        simp [bitLenAux, h0]
      rw [e]
      constructor
      · rw [pow_succ]
        omega
      · intro _
        rw [Nat.add_sub_cancel]
        by_cases hz : n / 2 = 0
        · have hb : bitLenAux f (n / 2) = 0 := by
            rw [hz]
            cases f <;> simp [bitLenAux]
          rw [hb]
          simp
          omega
        · have i3 := i2 hz
          have hpos : bitLenAux f (n / 2) ≠ 0 := by
            intro hb
            rw [hb] at i1
            simp at i1
            exact hz i1
          obtain ⟨m, hm⟩ := Nat.exists_eq_succ_of_ne_zero hpos
          rw [hm] at i3 ⊢
          rw [Nat.succ_sub_one] at i3
          rw [Nat.succ_eq_add_one, pow_succ]
          omega

theorem lt_two_pow_bitLen (n : Nat) : n < 2 ^ bitLen n :=
  (bitLenAux_spec n n (le_refl n)).1

theorem two_pow_bitLen_pred_le (n : Nat) (h : n ≠ 0) : 2 ^ (bitLen n - 1) ≤ n :=
  (bitLenAux_spec n n (le_refl n)).2 h

theorem bitLen_le_of_lt_two_pow (n m : Nat) (h : n < 2 ^ m) : bitLen n ≤ m := by
  by_contra hc
  have hn : n ≠ 0 := by
    intro e
    subst e
    have : bitLen 0 = 0 := by simp [bitLen, bitLenAux]
    omega
  have h1 := two_pow_bitLen_pred_le n hn
  have h2 : 2 ^ m ≤ 2 ^ (bitLen n - 1) := Nat.pow_le_pow_right (by norm_num) (by omega)
  omega

theorem bitLen_mono (a b : Nat) (h : a ≤ b) : bitLen a ≤ bitLen b :=
  bitLen_le_of_lt_two_pow a _ (lt_of_le_of_lt h (lt_two_pow_bitLen b))

theorem rne_bounds (n d : Nat) : n / d ≤ rne n d ∧ rne n d ≤ n / d + 1 := by
  unfold rne
  split_ifs <;> omega

theorem rne_of_dvd (n d : Nat) (hd : 0 < d) (h : n % d = 0) : rne n d = n / d := by
  unfold rne
  rw [h]
  simp [hd]

theorem rne_mono (n1 n2 d : Nat) (h : n1 ≤ n2) : rne n1 d ≤ rne n2 d := by
  have hq : n1 / d ≤ n2 / d := Nat.div_le_div_right h
  rcases Nat.lt_or_ge (n1 / d) (n2 / d) with hlt | hge
  · have := (rne_bounds n1 d).2
    have := (rne_bounds n2 d).1
    omega
  · have hqe : n1 / d = n2 / d := le_antisymm hq hge
    have hr : n1 % d ≤ n2 % d := by
      have e1 := Nat.div_add_mod n1 d
      have e2 := Nat.div_add_mod n2 d
      rw [hqe] at e1
      omega
    unfold rne
    rw [hqe]
    split_ifs <;> omega

theorem rne_mul_le (n d : Nat) (hd : 0 < d) : 2 * (rne n d * d) ≤ 2 * n + d := by
  have e := Nat.div_add_mod n d
  have hm : d * (n / d) = n / d * d := Nat.mul_comm _ _
  unfold rne
  split_ifs
  · omega
  · rw [Nat.add_mul]; omega
  · omega
  · rw [Nat.add_mul]; omega


theorem exponent_spec (q : Nat) :
    q < 2 ^ (53 + (bitLen q - 53)) ∧ (0 < bitLen q - 53 → 2 ^ (52 + (bitLen q - 53)) ≤ q) := by
  constructor
  · exact lt_of_lt_of_le (lt_two_pow_bitLen q) (Nat.pow_le_pow_right (by norm_num) (by omega))
  · intro hk
    have hq : q ≠ 0 := by
      intro e
      subst e
      have : bitLen 0 = 0 := by simp [bitLen, bitLenAux]
      omega
    have e : 52 + (bitLen q - 53) = bitLen q - 1 := by omega
    rw [e]
    exact two_pow_bitLen_pred_le q hq

theorem round53_le (n d : Nat) : round53 n d ≤ 2 ^ (53 + (bitLen (n / d) - 53)) := by
  have hq := (exponent_spec (n / d)).1
  unfold round53
  simp only
  generalize bitLen (n / d) - 53 = k at hq ⊢
  have h1 : n / (d * 2 ^ k) < 2 ^ 53 := by
    rw [← Nat.div_div_eq_div_mul]
    rw [Nat.div_lt_iff_lt_mul (by positivity)]
    rw [← pow_add]
    exact hq
  have h2 := (rne_bounds n (d * 2 ^ k)).2
  have h3 : rne n (d * 2 ^ k) ≤ 2 ^ 53 := by omega
  calc rne n (d * 2 ^ k) * 2 ^ k ≤ 2 ^ 53 * 2 ^ k := Nat.mul_le_mul_right _ h3
    _ = 2 ^ (53 + k) := by rw [pow_add]

theorem le_round53 (n d : Nat) (hk : 0 < bitLen (n / d) - 53) :
    2 ^ (52 + (bitLen (n / d) - 53)) ≤ round53 n d := by
  have hq := (exponent_spec (n / d)).2 hk
  unfold round53
  simp only
  generalize bitLen (n / d) - 53 = k at hq ⊢
  have h1 : 2 ^ 52 ≤ n / (d * 2 ^ k) := by
    rw [← Nat.div_div_eq_div_mul]
    rw [Nat.le_div_iff_mul_le (by positivity)]
    rw [← pow_add]
    exact hq
  have h2 := (rne_bounds n (d * 2 ^ k)).1
  calc 2 ^ (52 + k) = 2 ^ 52 * 2 ^ k := by rw [pow_add]
    _ ≤ rne n (d * 2 ^ k) * 2 ^ k := Nat.mul_le_mul_right _ (le_trans h1 h2)

/-- Rounding to 53 significant digits is monotone in the numerator. -/
theorem round53_mono (n1 n2 d : Nat) (h : n1 ≤ n2) : round53 n1 d ≤ round53 n2 d := by
  have hq : n1 / d ≤ n2 / d := Nat.div_le_div_right h
  have hb : bitLen (n1 / d) - 53 ≤ bitLen (n2 / d) - 53 :=
    Nat.sub_le_sub_right (bitLen_mono _ _ hq) 53
  rcases Nat.lt_or_ge (bitLen (n1 / d) - 53) (bitLen (n2 / d) - 53) with hlt | hge
  · have u := round53_le n1 d
    have l := le_round53 n2 d (by omega)
    have m : 2 ^ (53 + (bitLen (n1 / d) - 53)) ≤ 2 ^ (52 + (bitLen (n2 / d) - 53)) :=
      Nat.pow_le_pow_right (by norm_num) (by omega)
    omega
  · have e : bitLen (n1 / d) - 53 = bitLen (n2 / d) - 53 := le_antisymm hb hge
    unfold round53
    simp only
    rw [e]
    exact Nat.mul_le_mul_right _ (rne_mono _ _ _ h)

/-- A natural number that already fits 53 significant digits is left unchanged. -/
theorem round53_exact (n : Nat) (h : 2 ^ (bitLen n - 53) ∣ n) : round53 n 1 = n := by
  unfold round53
  simp only [Nat.div_one, one_mul]
  rw [rne_of_dvd _ _ (by positivity) (Nat.mod_eq_zero_of_dvd h)]
  exact Nat.div_mul_cancel h

theorem round53_whole (s : Nat) (hs : s < 2 ^ 53) : round53 (s * 2 ^ 82) 1 = s * 2 ^ 82 := by
  apply round53_exact
  have hlt : s * 2 ^ 82 < 2 ^ 135 := by
    calc s * 2 ^ 82 < 2 ^ 53 * 2 ^ 82 := Nat.mul_lt_mul_of_pos_right hs (by positivity)
      _ = 2 ^ 135 := by rw [← pow_add]
  have hb := bitLen_le_of_lt_two_pow _ _ hlt
  exact Dvd.dvd.mul_left (Nat.pow_dvd_pow 2 (by omega)) s


theorem fraction_one : round53 (1000000000 * 2 ^ 82) 1000000000 = 2 ^ 82 := by
  decide!

theorem fraction_max : round53 (999999999 * 2 ^ 82) 1000000000 + 2 ^ 52 < 2 ^ 82 := by
  decide!

theorem fraction_le (n : Nat) (h : n ≤ 1000000000) :
    round53 (n * 2 ^ 82) 1000000000 ≤ 2 ^ 82 := by
  have := round53_mono (n * 2 ^ 82) (1000000000 * 2 ^ 82) 1000000000
    (Nat.mul_le_mul_right _ h)
  rw [fraction_one] at this
  exact this

/-- The rounded sum inside `secondsScaled` grows with the duration. -/
theorem sum_mono (d1 d2 : Nat) (h : d1 ≤ d2) :
    d1 / 1000000000 * 2 ^ 82 + round53 (d1 % 1000000000 * 2 ^ 82) 1000000000
      ≤ d2 / 1000000000 * 2 ^ 82 + round53 (d2 % 1000000000 * 2 ^ 82) 1000000000 := by
  have hq : d1 / 1000000000 ≤ d2 / 1000000000 := Nat.div_le_div_right h
  rcases Nat.lt_or_ge (d1 / 1000000000) (d2 / 1000000000) with hlt | hge
  · have h1 := fraction_le (d1 % 1000000000) (by omega)
    have h2 : (d1 / 1000000000 + 1) * 2 ^ 82 ≤ d2 / 1000000000 * 2 ^ 82 :=
      Nat.mul_le_mul_right _ hlt
    rw [Nat.add_mul, one_mul] at h2
    omega
  · have e : d1 / 1000000000 = d2 / 1000000000 := le_antisymm hq hge
    have hr : d1 % 1000000000 ≤ d2 % 1000000000 := by omega
    have := round53_mono (d1 % 1000000000 * 2 ^ 82) (d2 % 1000000000 * 2 ^ 82) 1000000000
      (Nat.mul_le_mul_right _ hr)
    rw [e]
    omega

theorem secondsScaled_mono (d1 d2 : Nat) (h : d1 ≤ d2) :
    secondsScaled d1 ≤ secondsScaled d2 :=
  round53_mono _ _ 1 (sum_mono d1 d2 h)

/-- The `float64` number of seconds lies between the whole seconds elapsed and one more. -/
theorem secondsScaled_bounds (d : Nat) (hd : d / 1000000000 + 1 < 2 ^ 53) :
    d / 1000000000 * 2 ^ 82 ≤ secondsScaled d ∧
    secondsScaled d ≤ (d / 1000000000 + 1) * 2 ^ 82 := by
  constructor
  · have := round53_mono (d / 1000000000 * 2 ^ 82)
      (d / 1000000000 * 2 ^ 82 + round53 (d % 1000000000 * 2 ^ 82) 1000000000) 1
      (Nat.le_add_right _ _)
    rw [round53_whole _ (by omega)] at this
    exact this
  · have h1 := fraction_le (d % 1000000000) (by omega)
    have := round53_mono
      (d / 1000000000 * 2 ^ 82 + round53 (d % 1000000000 * 2 ^ 82) 1000000000)
      ((d / 1000000000 + 1) * 2 ^ 82) 1 (by rw [Nat.add_mul, one_mul]; omega)
    rw [round53_whole _ hd] at this
    exact this

/-- Below `2 ^ 24` seconds the rounded sum stays under the next whole second. -/
theorem secondsScaled_lt (d : Nat) (hd : d < 2 ^ 24 * 1000000000) :
    secondsScaled d < (d / 1000000000 + 1) * 2 ^ 82 := by
  have hs : d / 1000000000 < 2 ^ 24 := Nat.div_lt_of_lt_mul (by rw [Nat.mul_comm]; exact hd)
  have hf : round53 (d % 1000000000 * 2 ^ 82) 1000000000
      ≤ round53 (999999999 * 2 ^ 82) 1000000000 :=
    round53_mono _ _ _ (Nat.mul_le_mul_right _ (by omega))
  have hmax := fraction_max
  unfold secondsScaled
  generalize hx : d / 1000000000 * 2 ^ 82 + round53 (d % 1000000000 * 2 ^ 82) 1000000000 = x
  have hxlt : x + 2 ^ 52 < (d / 1000000000 + 1) * 2 ^ 82 := by
    rw [Nat.add_mul, one_mul]
    omega
  have hx106 : x < 2 ^ 106 := by
    have : (d / 1000000000 + 1) * 2 ^ 82 ≤ 2 ^ 24 * 2 ^ 82 := Nat.mul_le_mul_right _ hs
    rw [← pow_add] at this
    omega
  have hb := bitLen_le_of_lt_two_pow x 106 hx106
  unfold round53
  simp only [Nat.div_one, one_mul]
  have hr := rne_mul_le x (2 ^ (bitLen x - 53)) (by positivity)
  have hp : 2 ^ (bitLen x - 53) ≤ 2 ^ 53 := Nat.pow_le_pow_right (by norm_num) (by omega)
  have h52 : (2 : Nat) ^ 53 = 2 * 2 ^ 52 := by norm_num
  omega


theorem Since_of_le (start t : Int) (h : start ≤ t) :
    Since start t = min (2 ^ 63 - 1) (t - start) ∧ 0 ≤ Since start t ∧
    Since start t < 2 ^ 63 := by
  unfold Since
  have h0 : (0 : Int) ≤ t - start := by omega
  have hp : (0 : Int) < 2 ^ 63 := by norm_num
  rcases le_total ((2 : Int) ^ 63 - 1) (t - start) with hc | hc
  · rw [min_eq_left hc, max_eq_right (by omega)]
    omega
  · rw [min_eq_right hc, max_eq_right (by omega)]
    omega

theorem uptimeSecs_of_nonneg (d : Int) (h : 0 ≤ d) :
    uptimeSecs d = ((secondsScaled d.toNat / 2 ^ 82 : Nat) : Int) := by
  unfold uptimeSecs
  rw [if_pos h]

theorem uptimeSecs_mono (d1 d2 : Int) (h1 : 0 ≤ d1) (h : d1 ≤ d2) :
    uptimeSecs d1 ≤ uptimeSecs d2 := by
  rw [uptimeSecs_of_nonneg d1 h1, uptimeSecs_of_nonneg d2 (le_trans h1 h)]
  exact Int.ofNat_le.2 (Nat.div_le_div_right (secondsScaled_mono _ _ (Int.toNat_le_toNat h)))

theorem uptimeSecs_bounds (d : Int) (h0 : 0 ≤ d) (h : d < 2 ^ 63) :
    d / 1000000000 ≤ uptimeSecs d ∧ uptimeSecs d ≤ d / 1000000000 + 1 := by
  rw [uptimeSecs_of_nonneg d h0]
  obtain ⟨n, rfl⟩ := Int.eq_ofNat_of_zero_le h0
  have hn : n < 2 ^ 63 := by exact_mod_cast h
  simp only [Int.toNat_ofNat]
  have hs : n / 1000000000 + 1 < 2 ^ 53 := by
    have : n / 1000000000 < 2 ^ 52 := Nat.div_lt_of_lt_mul (by norm_num; omega)
    have : (2 : Nat) ^ 53 = 2 * 2 ^ 52 := by norm_num
    omega
  obtain ⟨b1, b2⟩ := secondsScaled_bounds n hs
  have c1 : n / 1000000000 ≤ secondsScaled n / 2 ^ 82 :=
    (Nat.le_div_iff_mul_le (by positivity)).2 b1
  have c2 : secondsScaled n / 2 ^ 82 ≤ n / 1000000000 + 1 := by
    calc secondsScaled n / 2 ^ 82 ≤ (n / 1000000000 + 1) * 2 ^ 82 / 2 ^ 82 :=
          Nat.div_le_div_right b2
      _ = n / 1000000000 + 1 := Nat.mul_div_cancel _ (by positivity)
  constructor
  · exact_mod_cast c1
  · exact_mod_cast c2

theorem uptimeSecs_eq_div (d : Int) (h0 : 0 ≤ d) (h : d < 2 ^ 24 * 1000000000) :
    uptimeSecs d = d / 1000000000 := by
  have hlt : d < 2 ^ 63 := by
    have : (2 : Int) ^ 24 * 1000000000 < 2 ^ 63 := by norm_num
    omega
  have hb := (uptimeSecs_bounds d h0 hlt).1
  rw [uptimeSecs_of_nonneg d h0] at hb ⊢
  obtain ⟨n, rfl⟩ := Int.eq_ofNat_of_zero_le h0
  have hn : n < 2 ^ 24 * 1000000000 := by exact_mod_cast h
  simp only [Int.toNat_ofNat] at hb ⊢
  have c : secondsScaled n / 2 ^ 82 < n / 1000000000 + 1 :=
    Nat.div_lt_of_lt_mul (by rw [Nat.mul_comm]; exact secondsScaled_lt n hn)
  have hb' : n / 1000000000 ≤ secondsScaled n / 2 ^ 82 := by exact_mod_cast hb
  have : secondsScaled n / 2 ^ 82 = n / 1000000000 := by omega
  rw [this, Int.natCast_div]
  rfl

/-! ## Claims -/

/-- C1, as the claim states it, fails: split on newlines the `/hello list` content has one
piece more than there are quips (the text ends with a newline), and its first line starts
with a space, so it is not the ordinal `1` followed by `. ` and the first quip. -/
theorem hello_list_plain_ordinals_fail :
    interactionHandler ⟨.ApplicationCommand, "hello".toList, ["list".toList]⟩ ⟨0, 0⟩
        ⟨0, by decide⟩
      = [{ ephemeral := false, content := some helloListContent }]
    ∧ (Split helloListContent).length ≠ quips.length
    ∧ (Split helloListContent).get? 0
        ≠ some (Nat.toDigits 10 1 ++ ". ".toList ++ quips.get ⟨0, by decide⟩)
    ∧ (Split helloListContent).get? 0
        = some (' ' :: Nat.toDigits 10 1 ++ ". ".toList ++ quips.get ⟨0, by decide⟩) :=
  ⟨handler_hello_list [] ⟨0, 0⟩ ⟨0, by decide⟩, by decide, by decide, by decide⟩

/-- C1, amended: the `/hello list` reply is one public reply whose content, split on newline
characters, has `len(quips)` lines followed by one empty piece (every line ends with a
newline), and for every `i` in `1..len(quips)` the `i`-th line is the decimal ordinal `i`
right-aligned in a field of width two (a leading space below ten) followed by `. ` and the
`i`-th quip of the table. -/
theorem hello_list_lines (clk : Clock) (k : Fin quips.length) (rest : List (List Char)) :
    interactionHandler ⟨.ApplicationCommand, "hello".toList, "list".toList :: rest⟩ clk k
      = [{ ephemeral := false, content := some helloListContent }]
    ∧ (Split helloListContent).length = quips.length + 1
    ∧ (∀ i : Fin quips.length, (Split helloListContent).get? i
        = some (padLeft 2 (Nat.toDigits 10 (i + 1)) ++ ". ".toList ++ quips.get i))
    ∧ (Split helloListContent).get? quips.length = some [] :=
  ⟨handler_hello_list rest clk k, by decide, by decide, by decide⟩

/-- C2: for every index `k` that `rand.Intn(len(quips))` can return, `/hello random` (whatever
options follow the first) sends exactly one public reply whose content, after `respond`
formats the chosen quip as a format string without operands, is `quips[k]`, an element of
the quip table. -/
theorem hello_random_reply (clk : Clock) (k : Fin quips.length) (rest : List (List Char)) :
    interactionHandler ⟨.ApplicationCommand, "hello".toList, "random".toList :: rest⟩ clk k
      = [{ ephemeral := false, content := some (quips.get k) }]
    ∧ quips.get k ∈ quips := by
  refine ⟨?_, List.get_mem _ _ _⟩
  rw [handler_hello]
  simp only [helloSub, respond, if_true]
  rw [Sprintf_plain _ (quips_plain _ (List.get_mem _ _ _))]

/-- C9: a `/hello` invocation whose first option is named neither `random` nor `list` gets
exactly one reply, public, with content `Unknown subcommand.`, whatever options follow. -/
theorem hello_unknown_reply (clk : Clock) (k : Fin quips.length) (first : List Char)
    (rest : List (List Char)) (h1 : first ≠ "random".toList) (h2 : first ≠ "list".toList) :
    interactionHandler ⟨.ApplicationCommand, "hello".toList, first :: rest⟩ clk k
      = [{ ephemeral := false, content := some "Unknown subcommand.".toList }] := by
  rw [handler_hello]
  simp only [helloSub, if_neg h1, if_neg h2, respond]
  rw [Sprintf_plain _ (by decide)]

/-- Witness for C9: the first option `shout`, followed by `list` and `random`. -/
theorem hello_unknown_reply_witness :
    "shout".toList ≠ "random".toList ∧ "shout".toList ≠ "list".toList ∧
    interactionHandler
        ⟨.ApplicationCommand, "hello".toList, ["shout".toList, "list".toList, "random".toList]⟩
        ⟨0, 0⟩ ⟨0, by decide⟩
      = [{ ephemeral := false, content := some "Unknown subcommand.".toList }] :=
  ⟨by decide, by decide,
    hello_unknown_reply ⟨0, 0⟩ ⟨0, by decide⟩ "shout".toList ["list".toList, "random".toList]
      (by decide) (by decide)⟩

/-- C3, as the claim states it, fails: a command invocation whose name is none of the four
names the handler switches on gets no reply at all. -/
theorem unknown_command_no_reply :
    interactionHandler ⟨.ApplicationCommand, "shutdown".toList, []⟩ ⟨0, 0⟩ ⟨0, by decide⟩ = []
    ∧ (interactionHandler ⟨.ApplicationCommand, "shutdown".toList, []⟩ ⟨0, 0⟩
        ⟨0, by decide⟩).length ≠ 1 :=
  ⟨by decide, by decide⟩

/-- C3, amended: the handler never calls `respond` twice for one event, and for every
command invocation whose command name is one of `ping`, `health`, `status`, `hello` (with any
list of options) it calls `respond` exactly once. -/
theorem handler_reply_count (i : InteractionCreate) (clk : Clock) (k : Fin quips.length) :
    (interactionHandler i clk k).length ≤ 1
    ∧ (i.kind = InteractionType.ApplicationCommand → i.name ∈ commands →
        (interactionHandler i clk k).length = 1) := by
  have hsub : ∀ first, (helloSub first k).length = 1 := by
    intro first
    unfold helloSub
    split_ifs
    · rfl
    · split <;> rfl
    · rfl
  have hhello : (match i.options with
      | [] => respond false "Use `/hello random` or `/hello list`.".toList []
      | first :: _ => helloSub first k).length = 1 := by
    split
    · rfl
    · exact hsub _
  constructor
  · unfold interactionHandler
    split_ifs
    · simp
    · simp [respond]
    · simp [respond]
    · simp [respond]
    · rw [hhello]
    · simp
  · intro hk hn
    unfold interactionHandler
    rw [if_neg (by simp [hk])]
    split_ifs with h1 h2 h3 h4
    · rfl
    · rfl
    · rfl
    · exact hhello
    · simp [commands] at hn
      rcases hn with h | h | h | h
      · exact absurd h h1
      · exact absurd h h2
      · exact absurd h h3
      · exact absurd h h4

/-- Witness for C3: the `status` command with two stray options. -/
theorem handler_reply_count_witness :
    (interactionHandler ⟨.ApplicationCommand, "status".toList, ["a".toList, "b".toList]⟩
        ⟨5000000000, 1700000000000⟩ ⟨3, by decide⟩).length = 1 :=
  (handler_reply_count ⟨.ApplicationCommand, "status".toList, ["a".toList, "b".toList]⟩
    ⟨5000000000, 1700000000000⟩ ⟨3, by decide⟩).2 rfl (by decide)

/-- C6: for every clock reading the snapshot built by the `GET /healthz` handler has
`ready = true` and `quips_available = len(quips)`, and the handler answers status 200 with
the JSON encoding of that snapshot; the `/health` command replies privately with the indented
JSON of the snapshot it builds, and that snapshot, built from the same clock reading, is the
same value field for field (name, ready, uptime, last-ok time, version, quip count). -/
theorem health_snapshots_agree (clk : Clock) (k : Fin quips.length)
    (options : List (List Char)) :
    (healthzSnapshot clk).Ready = true
    ∧ (healthzSnapshot clk).QuipsAvailable = quips.length
    ∧ healthzHandler clk
        = { status := 200
            contentType := "application/json".toList
            body := Encode (healthzSnapshot clk) }
    ∧ interactionHandler ⟨.ApplicationCommand, "health".toList, options⟩ clk k
        = [{ ephemeral := true
             content := some ("```json\n".toList ++ MarshalIndent (healthCommandSnapshot clk)
               ++ "\n```".toList) }]
    ∧ (healthCommandSnapshot clk).Name = (healthzSnapshot clk).Name
    ∧ (healthCommandSnapshot clk).Ready = (healthzSnapshot clk).Ready
    ∧ (healthCommandSnapshot clk).UptimeSecs = (healthzSnapshot clk).UptimeSecs
    ∧ (healthCommandSnapshot clk).LastOKUnixMS = (healthzSnapshot clk).LastOKUnixMS
    ∧ (healthCommandSnapshot clk).Version = (healthzSnapshot clk).Version
    ∧ (healthCommandSnapshot clk).QuipsAvailable = (healthzSnapshot clk).QuipsAvailable
    ∧ healthCommandSnapshot clk = healthzSnapshot clk :=
  ⟨rfl, rfl, rfl, health_command_reply clk k options, rfl, rfl, rfl, rfl, rfl, rfl, rfl⟩

/-- C8: when every registration call succeeds, the calls made are exactly one per command in
the order `ping`, `health`, `status`, `hello`, none is fatal, each carries `GUILD_ID` as its
scope when that is non-empty and the empty (global) scope otherwise, and each carries
`APP_ID` when that is non-empty and otherwise the identity of the open session user. -/
theorem registration_requests {σ : Type} (create : σ → CreateRequest → σ × Bool)
    (cfg : Config) (sessionUserID : List Char) (st : σ)
    (hok : ∀ s req, (create s req).2 = true) :
    (registerCommands create cfg sessionUserID st).1
        = ["ping".toList, "health".toList, "status".toList, "hello".toList].map
            (fun c =>
              { appID := if cfg.AppID ≠ [] then cfg.AppID else sessionUserID
                guildID := if cfg.GuildID ≠ [] then cfg.GuildID else []
                cmd := c })
    ∧ (registerCommands create cfg sessionUserID st).2.2 = true := by
  unfold registerCommands
  by_cases ha : cfg.AppID = [] <;> by_cases hg : cfg.GuildID = [] <;>
    simp only [ha, hg, ne_eq, not_true_eq_false, not_false_eq_true, if_true, if_false] <;>
    exact registerLoop_ok create hok _ _ commands st

/-- Witness for C8: a collaborator that counts its calls and always succeeds, a configured
guild and no configured application id. -/
theorem registration_requests_witness :
    (registerCommands (fun (n : Nat) (_ : CreateRequest) => (n + 1, true))
        ⟨"tok".toList, [], "g1".toList, "127.0.0.1:8788".toList⟩ "bot42".toList 0).1
      = [⟨"bot42".toList, "g1".toList, "ping".toList⟩,
         ⟨"bot42".toList, "g1".toList, "health".toList⟩,
         ⟨"bot42".toList, "g1".toList, "status".toList⟩,
         ⟨"bot42".toList, "g1".toList, "hello".toList⟩] :=
  (registration_requests (fun (n : Nat) (_ : CreateRequest) => (n + 1, true))
    ⟨"tok".toList, [], "g1".toList, "127.0.0.1:8788".toList⟩ "bot42".toList 0
    (fun _ _ => rfl)).1

/-- C4: inserting a line that, after trimming, is blank, starts with `#`, or is a `key=value`
pair whose trimmed key is not exactly one of the four recognised keys, does not change what
`loadEnv` returns, whether the line goes between two lines of the file, before the first line,
or after the last. -/
theorem loadEnv_insert_ignorable (a b l : List Char) (hl : '\n' ∉ l) (hi : ignorable l) :
    loadEnv (.ok (a ++ '\n' :: (l ++ '\n' :: b))) = loadEnv (.ok (a ++ '\n' :: b))
    ∧ loadEnv (.ok (l ++ '\n' :: b)) = loadEnv (.ok b)
    ∧ loadEnv (.ok (a ++ '\n' :: l)) = loadEnv (.ok a) := by
  have hs : Split l = [l] := Split_of_no_newline l hl
  have h1 : ∀ cfg, (Split l).foldl loadLine cfg = cfg := by
    intro cfg
    rw [hs, List.foldl_cons, List.foldl_nil, loadLine_ignorable cfg l hi]
  refine ⟨?_, ?_, ?_⟩
  · simp only [loadEnv, loadContent]
    rw [Split_append_newline, Split_append_newline, Split_append_newline, List.foldl_append,
      List.foldl_append, List.foldl_append, h1]
  · simp only [loadEnv, loadContent]
    rw [Split_append_newline, List.foldl_append, h1]
  · simp only [loadEnv, loadContent]
    rw [Split_append_newline, List.foldl_append, h1]

/-- Witness for C4: the line `discord_token=x` (a key in the wrong case) inserted between a
token line and an application-id line. -/
theorem loadEnv_insert_ignorable_witness :
    loadEnv (.ok "DISCORD_TOKEN=t\ndiscord_token=x\nAPP_ID=1".toList)
      = loadEnv (.ok "DISCORD_TOKEN=t\nAPP_ID=1".toList) :=
  (loadEnv_insert_ignorable "DISCORD_TOKEN=t".toList "APP_ID=1".toList "discord_token=x".toList
    (by decide) (Or.inr (Or.inr ⟨by decide, by decide⟩))).1

/-- C5: for every readable file content `loadEnv` returns no error and a `HealthAddr` that is
never empty; `HealthAddr` is `127.0.0.1:8788` when no line has the key `HEALTH_ADDR` and also
when the last such line has an empty value; `Token`, `AppID` and `GuildID` are empty when no
line has their key. -/
theorem loadEnv_defaults (content : List Char) :
    (loadEnv (.ok content)).2 = none
    ∧ (loadEnv (.ok content)).1.HealthAddr ≠ []
    ∧ (linesWithKey "HEALTH_ADDR".toList content = [] →
        (loadEnv (.ok content)).1.HealthAddr = "127.0.0.1:8788".toList)
    ∧ (lastValue "HEALTH_ADDR".toList content = some [] →
        (loadEnv (.ok content)).1.HealthAddr = "127.0.0.1:8788".toList)
    ∧ (linesWithKey "DISCORD_TOKEN".toList content = [] → (loadEnv (.ok content)).1.Token = [])
    ∧ (linesWithKey "APP_ID".toList content = [] → (loadEnv (.ok content)).1.AppID = [])
    ∧ (linesWithKey "GUILD_ID".toList content = [] → (loadEnv (.ok content)).1.GuildID = []) := by
  obtain ⟨s1, s2, s3, s4⟩ := stored_fields content
  obtain ⟨w1, w2, w3, w4⟩ := withDefault_fields ((Split content).foldl loadLine Config.zero)
  simp only [loadEnv, loadContent]
  refine ⟨trivial, ?_, ?_, ?_, ?_, ?_, ?_⟩
  · rw [w4]
    split_ifs with h
    · decide
    · exact h
  · intro h
    rw [w4, s4, lastValue_of_no_line _ _ h]
    rfl
  · intro h
    rw [w4, s4, h]
    rfl
  · intro h
    rw [w1, s1, lastValue_of_no_line _ _ h]
    rfl
  · intro h
    rw [w2, s2, lastValue_of_no_line _ _ h]
    rfl
  · intro h
    rw [w3, s3, lastValue_of_no_line _ _ h]
    rfl

/-- Witness for C5: a file with a token, an application id, and a `HEALTH_ADDR` line whose
value is empty; there is no `GUILD_ID` line. -/
theorem loadEnv_defaults_witness :
    (loadEnv (.ok "DISCORD_TOKEN=t\nAPP_ID=1\nHEALTH_ADDR= \n".toList)).1.HealthAddr
      = "127.0.0.1:8788".toList
    ∧ (loadEnv (.ok "DISCORD_TOKEN=t\nAPP_ID=1\nHEALTH_ADDR= \n".toList)).1.GuildID = [] :=
  ⟨(loadEnv_defaults "DISCORD_TOKEN=t\nAPP_ID=1\nHEALTH_ADDR= \n".toList).2.2.2.1 (by decide),
   (loadEnv_defaults "DISCORD_TOKEN=t\nAPP_ID=1\nHEALTH_ADDR= \n".toList).2.2.2.2.2.2
     (by decide)⟩

/-- C10, as the claim states it, fails for `HEALTH_ADDR`: in the file `HEALTH_ADDR=a` /
`HEALTH_ADDR=` the last line with that key has the empty value, and what `loadEnv` returns is
not that value but the default `127.0.0.1:8788`. -/
theorem last_health_addr_value_not_returned :
    lastValue "HEALTH_ADDR".toList "HEALTH_ADDR=a\nHEALTH_ADDR=".toList = some []
    ∧ (loadEnv (.ok "HEALTH_ADDR=a\nHEALTH_ADDR=".toList)).1.HealthAddr
        = "127.0.0.1:8788".toList
    ∧ some (loadEnv (.ok "HEALTH_ADDR=a\nHEALTH_ADDR=".toList)).1.HealthAddr
        ≠ lastValue "HEALTH_ADDR".toList "HEALTH_ADDR=a\nHEALTH_ADDR=".toList :=
  ⟨by decide, by decide, by decide⟩

/-- C10, amended: the value the loop of `loadEnv` stores for a recognised key is the trimmed
text after the first `=` of the last line that has this key (later `=` characters stay in the
value, as in `DISCORD_TOKEN=ab=cd==`), and this is the value returned, except that an empty
stored `HEALTH_ADDR` is returned as `127.0.0.1:8788`. -/
theorem loadEnv_last_value (content : List Char) :
    ((Split content).foldl loadLine Config.zero).HealthAddr
        = (lastValue "HEALTH_ADDR".toList content).getD []
    ∧ (loadEnv (.ok content)).1.Token = (lastValue "DISCORD_TOKEN".toList content).getD []
    ∧ (loadEnv (.ok content)).1.AppID = (lastValue "APP_ID".toList content).getD []
    ∧ (loadEnv (.ok content)).1.GuildID = (lastValue "GUILD_ID".toList content).getD []
    ∧ (loadEnv (.ok content)).1.HealthAddr
        = (if (lastValue "HEALTH_ADDR".toList content).getD [] = [] then "127.0.0.1:8788".toList
           else (lastValue "HEALTH_ADDR".toList content).getD [])
    ∧ lineValue "DISCORD_TOKEN=ab=cd==".toList = "ab=cd==".toList
    ∧ (loadEnv (.ok "DISCORD_TOKEN=ab=cd==".toList)).1.Token = "ab=cd==".toList := by
  obtain ⟨s1, s2, s3, s4⟩ := stored_fields content
  obtain ⟨w1, w2, w3, w4⟩ := withDefault_fields ((Split content).foldl loadLine Config.zero)
  simp only [loadEnv, loadContent]
  refine ⟨s4, ?_, ?_, ?_, ?_, by decide, by decide⟩
  · rw [w1, s1]
  · rw [w2, s2]
  · rw [w3, s3]
  · rw [w4, s4]

/-- The uptime is not always the truncated number of elapsed seconds: after
`16777216.999999999` seconds (about 194 days) the `float64` sum of whole and fractional
seconds rounds up to the next integer, so the uptime is `16777217`, not `16777216`. -/
theorem uptime_not_truncation :
    uptimeSecs (Since 0 16777216999999999) = 16777217
    ∧ (16777216999999999 : Int) / 1000000000 = 16777216
    ∧ uptimeSecs (Since 0 16777216999999999) ≠ (16777216999999999 - 0) / 1000000000 :=
  have a : uptimeSecs (Since 0 16777216999999999) = 16777217 := by decide!
  ⟨a, by decide, by rw [a]; decide⟩

/-- C7: with the start time fixed and clock readings `t1 < t2` at or after it, the
uptime in seconds (the elapsed time as a `float64` number of seconds, truncated to an
integer) is non-negative at both readings and the uptime at `t1` is at most the uptime at
`t2`; the uptime is the whole number of elapsed seconds or one more, and it is exactly the
whole number of elapsed seconds while fewer than `2 ^ 24` seconds have elapsed. -/
theorem uptime_after_start (start t1 t2 : Int) (h1 : start ≤ t1) (h12 : t1 < t2) :
    0 ≤ uptimeSecs (Since start t1) ∧ 0 ≤ uptimeSecs (Since start t2)
    ∧ uptimeSecs (Since start t1) ≤ uptimeSecs (Since start t2)
    ∧ Since start t2 / 1000000000 ≤ uptimeSecs (Since start t2)
    ∧ uptimeSecs (Since start t2) ≤ Since start t2 / 1000000000 + 1
    ∧ (t2 - start < 2 ^ 24 * 1000000000 →
        uptimeSecs (Since start t2) = (t2 - start) / 1000000000) := by
  obtain ⟨e1, p1, q1⟩ := Since_of_le start t1 h1
  obtain ⟨e2, p2, q2⟩ := Since_of_le start t2 (by omega)
  have hmono : Since start t1 ≤ Since start t2 := by
    rw [e1, e2]
    exact min_le_min (le_refl _) (by omega)
  have hb := uptimeSecs_bounds (Since start t2) p2 q2
  refine ⟨?_, ?_, uptimeSecs_mono _ _ p1 hmono, hb.1, hb.2, ?_⟩
  · rw [uptimeSecs_of_nonneg _ p1]
    exact Int.ofNat_nonneg _
  · rw [uptimeSecs_of_nonneg _ p2]
    exact Int.ofNat_nonneg _
  · intro hlt
    have hs : Since start t2 = t2 - start := by
      rw [e2]
      apply min_eq_right
      have : (2 : Int) ^ 24 * 1000000000 < 2 ^ 63 - 1 := by norm_num
      omega
    rw [hs]
    exact uptimeSecs_eq_div _ (by omega) hlt

/-- Witness for C7: start at `1000`, readings one and a half seconds and one day later. -/
theorem uptime_after_start_witness :
    0 ≤ uptimeSecs (Since 1000 1500001000)
    ∧ 0 ≤ uptimeSecs (Since 1000 86400000001000)
    ∧ uptimeSecs (Since 1000 1500001000) ≤ uptimeSecs (Since 1000 86400000001000)
    ∧ uptimeSecs (Since 1000 86400000001000) = (86400000001000 - 1000) / 1000000000 :=
  have h := uptime_after_start 1000 1500001000 86400000001000 (by decide) (by decide)
  ⟨h.1, h.2.1, h.2.2.1, h.2.2.2.2.2 (by decide)⟩

end Mirai
